import Mathlib

/-!
Verification of the streaming response reconciliation engine of the chat
relay server (`src/server.js`).

Strings are modelled as `List Char`.  The JavaScript operations used by the
server are embedded as executable Lean functions:

* `trim` models `String.prototype.trim` (whitespace stripped at both ends);
* `findSub` models left-to-right substring search (first match index);
* `mergeFragment` models the fragment-merge rule inlined in `callDifyAPI`
  (`server.js` lines 416-441);
* `processAIResponse` models the reasoning extractor (`server.js`
  lines 218-260), including the regex scans for complete and unterminated
  `<think>` sections and the stray-tag cleanup;
* `stepLine` / `finalizeStream` model the per-record loop and the
  end-of-stream handling of `callDifyAPI` (lines 373-493);
* `mockAIResponse` models the fallback responder (lines 164-215).
-/

/-- Whitespace test used by `trim` (models JS whitespace for the characters
that can actually occur in the server's strings). -/
def isWs (c : Char) : Bool :=
  c = ' ' || c = '\t' || c = '\n' || c = '\r'

/-- Drop leading whitespace. -/
def trimL (s : List Char) : List Char := s.dropWhile isWs

/-- Drop trailing whitespace. -/
def trimR (s : List Char) : List Char := (s.reverse.dropWhile isWs).reverse

/-- Model of `String.prototype.trim`: drop whitespace at both ends. -/
def trim (s : List Char) : List Char := trimR (trimL s)

/-- First index at which `pat` occurs as a contiguous sublist of `s`
(models `String.prototype.indexOf` / left-to-right regex search). -/
def findSub (pat : List Char) : List Char → Option Nat
  | [] => if pat = [] then some 0 else none
  | a :: t => if pat.isPrefixOf (a :: t) then some 0 else (findSub pat t).map (· + 1)

/-- The fragment-merge rule of `callDifyAPI` (`server.js` 416-441).
`fullResponse` is the accumulated answer, `newContent` the candidate
fragment text.  Mirrors the JS checks in order: empty/whitespace guard,
verbatim-equality skip, containment skip, superset append of
`trimmedNew.slice(fullResponse.trim().length).trim()`, and the default
space-joined append. -/
def mergeFragment (fullResponse newContent : List Char) : List Char :=
  if trim newContent = [] then fullResponse
  else if trim fullResponse = trim newContent then fullResponse
  else if trim newContent <:+: fullResponse then fullResponse
  else if trim fullResponse <:+: trim newContent then
    if trim ((trim newContent).drop (trim fullResponse).length) = [] then fullResponse
    else
      fullResponse ++ (if fullResponse = [] then [] else [' ']) ++
        trim ((trim newContent).drop (trim fullResponse).length)
  else fullResponse ++ (if fullResponse = [] then [] else [' ']) ++ trim newContent

/-- Folding the merge rule over a whole fragment sequence, starting from the
empty accumulated answer (the initial `fullResponse = ''`). -/
def mergeAll (frags : List (List Char)) : List Char :=
  frags.foldl mergeFragment []

/-- Whether the merge block ends in `continue` (`server.js` 421-437): the
exact-match, already-contained and superset branches all `continue` past the
send check at line 444; only the plain-append branch — and a record carrying
no usable text, for which the whole block is skipped — falls through to the
send check. -/
def mergeContinues (fullResponse newContent : List Char) : Bool :=
  if trim newContent = [] then false
  else if trim fullResponse = trim newContent then true
  else if trim newContent <:+: fullResponse then true
  else if trim fullResponse <:+: trim newContent then true
  else false

/-- The start marker of a reasoning segment. -/
def thinkOpenTag : List Char := "<think>".toList

/-- The end marker of a reasoning segment. -/
def thinkCloseTag : List Char := "</think>".toList

/-- Fuelled scan for the global regex of `processAIResponse`
(`/<think>([\s\S]*?)<\/think>/g`, `server.js` 225-238): repeatedly find the
leftmost `<think>`, then the nearest following `</think>` (non-greedy
content), collect the raw content, and continue after the match.  Returns
the text with every complete section removed together with the raw (not yet
trimmed or de-duplicated) contents in match order.  The fuel only bounds the
recursion; `s.length` is always sufficient. -/
def extractCompleteF : Nat → List Char → List Char × List (List Char)
  | 0, s => (s, [])
  | fuel + 1, s =>
    match findSub thinkOpenTag s with
    | none => (s, [])
    | some i =>
      match findSub thinkCloseTag (s.drop (i + 7)) with
      | none => (s, [])
      | some j =>
        (s.take i ++ (extractCompleteF fuel ((s.drop (i + 7)).drop (j + 8))).1,
          (s.drop (i + 7)).take j :: (extractCompleteF fuel ((s.drop (i + 7)).drop (j + 8))).2)

/-- The complete-section scan with its canonical fuel. -/
def extractComplete (s : List Char) : List Char × List (List Char) :=
  extractCompleteF s.length s

/-- One step of the de-duplicating accumulation of think contents
(`server.js` 229-235): trim, skip empty, skip exact duplicates, else push. -/
def addThink (acc : List (List Char)) (t : List Char) : List (List Char) :=
  if trim t = [] then acc
  else if trim t ∈ acc then acc
  else acc ++ [trim t]

/-- Fuelled model of `String.prototype.replace` with a global literal
pattern and empty replacement: left-to-right, non-overlapping, no rescan of
text produced by a removal. -/
def removeAllF (pat : List Char) : Nat → List Char → List Char
  | 0, s => s
  | fuel + 1, s =>
    match findSub pat s with
    | none => s
    | some i => s.take i ++ removeAllF pat fuel (s.drop (i + pat.length))

/-- Global removal with its canonical fuel. -/
def removeAll (pat s : List Char) : List Char := removeAllF pat s.length s

/-- Result of the reasoning extractor. -/
structure ProcessedResponse where
  thinks : List (List Char)
  mainContent : List Char
deriving DecidableEq

/-- The reasoning extractor `processAIResponse` (`server.js` 218-260):
extract complete `<think>...</think>` sections (trimmed, de-duplicated, in
insertion order), remove them from the text and trim; then handle one
unterminated trailing section (`/<think>([\s\S]*)$/`): its trimmed tail is
collected under the same de-duplication rule and the marker plus tail are
removed; finally strip stray `<think>` and `</think>` tokens and trim. -/
def processAIResponse (response : List Char) : ProcessedResponse :=
  match findSub thinkOpenTag (trim (extractComplete response).1) with
  | some i =>
    { thinks :=
        addThink ((extractComplete response).2.foldl addThink [])
          ((trim (extractComplete response).1).drop (i + 7)),
      mainContent := trim (removeAll thinkCloseTag (removeAll thinkOpenTag
        (trim ((trim (extractComplete response).1).take i)))) }
  | none =>
    { thinks := (extractComplete response).2.foldl addThink [],
      mainContent := trim (removeAll thinkCloseTag (removeAll thinkOpenTag
        (trim (extractComplete response).1))) }

/-- One update pushed over the delivery channel
(a `streaming_message` frame). -/
structure Emit where
  content : List Char
  thinks : List (List Char)
  isStreaming : Bool
deriving DecidableEq

/-- A successfully JSON-decoded upstream event, restricted to the fields
`callDifyAPI` reads (`server.js` 386-414).  `none` models an absent field;
`some []` models a present but empty string (falsy in JS). -/
structure ParsedEvent where
  answer : Option (List Char)
  text : Option (List Char)
  outputsAnswer : Option (List Char)
  outputsSysAnswer : Option (List Char)
  conversationId : Option (List Char)
deriving DecidableEq

/-- One raw payload record: either it fails `JSON.parse` (`malformed`) or it
decodes to a `ParsedEvent`. -/
inductive RawRecord where
  | malformed
  | parsed (e : ParsedEvent)
deriving DecidableEq

/-- JS truthiness of an optional string field. -/
def truthy : Option (List Char) → Bool
  | none => false
  | some s => !s.isEmpty

/-- Fragment text selected from a decoded event (`server.js` 405-414):
`data.answer`, else `data.text`, else `data.data.outputs.answer`, else
`data.data.outputs.sys.answer`, else the empty string. -/
def contentOf (e : ParsedEvent) : List Char :=
  if truthy e.answer then e.answer.getD []
  else if truthy e.text then e.text.getD []
  else if truthy e.outputsAnswer then e.outputsAnswer.getD []
  else if truthy e.outputsSysAnswer then e.outputsSysAnswer.getD []
  else []

/-- Mutable loop state of one `callDifyAPI` reconciliation pass. -/
structure RecState where
  fullResponse : List Char
  lastSent : List Char
  firstMessageSent : Bool
  sent : List Emit
  difyConversationId : Option (List Char)
deriving DecidableEq

/-- The state at the start of a pass (`fullResponse = ''`, `lastSent = ''`,
`firstMessageSent = false`, nothing sent). -/
def initState : RecState := ⟨[], [], false, [], none⟩

/-- Merge one fragment text and run the emission check (`server.js`
416-458).  The dedup branches (`mergeContinues`) end in `continue` and skip
the send check entirely — in particular a superset merge changes
`fullResponse` with no push, no `lastSent` update and no `firstMessageSent`.
Only on fall-through (plain append, or a record with no usable text) is an
incremental `streaming_message` sent, iff the raw `fullResponse` differs
from the raw watermark `lastSent`; the pushed frame carries the extractor's
`mainContent` and `thinks`. -/
def stepFragment (st : RecState) (c : List Char) : RecState :=
  if mergeContinues st.fullResponse c then
    ⟨mergeFragment st.fullResponse c, st.lastSent, st.firstMessageSent, st.sent,
      st.difyConversationId⟩
  else if mergeFragment st.fullResponse c ≠ st.lastSent then
    ⟨mergeFragment st.fullResponse c, mergeFragment st.fullResponse c, true,
      st.sent ++ [⟨(processAIResponse (mergeFragment st.fullResponse c)).mainContent,
        (processAIResponse (mergeFragment st.fullResponse c)).thinks, true⟩],
      st.difyConversationId⟩
  else
    ⟨mergeFragment st.fullResponse c, st.lastSent, st.firstMessageSent, st.sent,
      st.difyConversationId⟩

/-- Conversation-id correlation (`server.js` 387-402): a truthy id that
differs from the cached one replaces it. -/
def updateConversationId (st : RecState) (e : ParsedEvent) : RecState :=
  if truthy e.conversationId ∧ e.conversationId ≠ st.difyConversationId then
    ⟨st.fullResponse, st.lastSent, st.firstMessageSent, st.sent, e.conversationId⟩
  else st

/-- Process one raw payload record (`server.js` 383-461): a record that
fails to decode is dropped inside the `catch` and the state is untouched;
a decoded record updates the conversation id, merges its fragment text and
runs the emission check. -/
def stepLine (st : RecState) : RawRecord → RecState
  | RawRecord.malformed => st
  | RawRecord.parsed e => stepFragment (updateConversationId st e) (contentOf e)

/-- Run a whole record sequence from the initial state. -/
def runLines (records : List RawRecord) : RecState :=
  records.foldl stepLine initState

/-- Observable outcome of the end-of-stream handling: the incremental
frames sent while streaming, the final frames, the persistence calls
(answer text with reasoning list), and whether the fallback responder was
invoked. -/
structure StreamOutcome where
  incremental : List Emit
  finalPushes : List Emit
  persists : List (List Char × List (List Char))
  fallback : Bool
deriving DecidableEq

/-- End-of-stream handling of `callDifyAPI` (`server.js` 465-493): if
`fullResponse` is non-empty and something was sent, push exactly one final
frame (`isStreaming = false`) and issue exactly one persistence update for
the message record; otherwise push nothing, persist nothing, and fall back
to `mockAIResponse`. -/
def finalizeStream (st : RecState) : StreamOutcome :=
  if st.fullResponse ≠ [] ∧ st.firstMessageSent then
    { incremental := st.sent,
      finalPushes := [⟨(processAIResponse st.fullResponse).mainContent,
        (processAIResponse st.fullResponse).thinks, false⟩],
      persists := [((processAIResponse st.fullResponse).mainContent,
        (processAIResponse st.fullResponse).thinks)],
      fallback := false }
  else
    { incremental := st.sent, finalPushes := [], persists := [], fallback := true }

/-- A full reconciliation pass over a record sequence. -/
def runStream (records : List RawRecord) : StreamOutcome :=
  finalizeStream (runLines records)

/-- The canned reply table and template of `mockAIResponse`
(`server.js` 166-173). -/
def mockResponseText (message : List Char) : List Char :=
  if message = "你好".toList then
    "你好！我是一个AI助手，很高兴为您服务。".toList
  else if message = "今天天气怎么样".toList then
    "抱歉，我无法获取实时天气信息，但您可以尝试使用天气应用或网站查询。".toList
  else if message = "你能做什么".toList then
    "我可以帮助您回答问题、提供信息、进行对话等。".toList
  else if message = "谢谢".toList then
    "不客气！如果您有任何其他问题，随时可以问我。".toList
  else
    "我收到了您的消息：\"".toList ++ message ++ "\"。这是一个模拟的AI响应，因为Dify API调用失败了。".toList

/-- Observable behaviour of the fallback responder `mockAIResponse`
(`server.js` 164-215): an incremental frame per character prefix, a final
non-streaming frame provided the reply is non-empty and at least one
incremental frame was sent, and one insert of the reply into the message
store. -/
def mockAIResponse (message : List Char) : StreamOutcome :=
  { incremental := (List.range (mockResponseText message).length).map
      (fun i => ⟨(mockResponseText message).take (i + 1), [], true⟩),
    finalPushes := if mockResponseText message = [] then []
      else [⟨mockResponseText message, [], false⟩],
    persists := [(mockResponseText message, [])],
    fallback := false }

/-- Abstract decomposition of a text into visible parts and well-formed
reasoning sections: `renderSegs [(v1, c1), ..., (vn, cn)] final` is
`v1 ++ "<think>" ++ c1 ++ "</think>" ++ ... ++ vn ++ "<think>" ++ cn ++
"</think>" ++ final`. -/
def renderSegs : List (List Char × List Char) → List Char → List Char
  | [], final => final
  | (v, c) :: rest, final =>
    v ++ thinkOpenTag ++ c ++ thinkCloseTag ++ renderSegs rest final

/-- The visible text of a decomposition: the concatenation of the visible
parts and the final part. -/
def joinVis : List (List Char × List Char) → List Char → List Char
  | [], final => final
  | (v, _) :: rest, final => v ++ joinVis rest final

/-- A pattern has no non-trivial border (no proper prefix equal to a proper
suffix), so distinct occurrences of it can never overlap. -/
def noBorder (pat : List Char) : Prop :=
  ∀ k < pat.length, 0 < k → pat.take k ≠ pat.drop (pat.length - k)

/- ### Basic facts about `trim` -/

theorem dropWhile_idem (p : α → Bool) (l : List α) :
    (l.dropWhile p).dropWhile p = l.dropWhile p := by
  cases h : l.dropWhile p with
  | nil => rfl
  | cons b u =>
    have hb : p b = false := by
      have := List.head_dropWhile_not p l (by simp [h])
      simpa [h] using this
    simp [List.dropWhile_cons, hb]

theorem trimL_idem (s : List Char) : trimL (trimL s) = trimL s :=
  dropWhile_idem isWs s

theorem trimR_idem (s : List Char) : trimR (trimR s) = trimR s := by
  unfold trimR
  rw [List.reverse_reverse, dropWhile_idem]

theorem trimL_eq_nil_iff (s : List Char) : trimL s = [] ↔ ∀ c ∈ s, isWs c := by
  unfold trimL
  exact List.dropWhile_eq_nil_iff

theorem trimR_eq_nil_iff (s : List Char) : trimR s = [] ↔ ∀ c ∈ s, isWs c := by
  unfold trimR
  rw [List.reverse_eq_nil_iff, List.dropWhile_eq_nil_iff]
  constructor
  · intro h c hc
    exact h c (List.mem_reverse.2 hc)
  · intro h c hc
    exact h c (List.mem_reverse.1 hc)

theorem trimR_cons_not_ws {b : Char} (u : List Char) (hb : isWs b = false) :
    ∃ z : List Char, trimR (b :: u) = b :: z := by
  unfold trimR
  rcases h : u.reverse.dropWhile isWs with _ | ⟨c, v⟩
  · refine ⟨[], ?_⟩
    rw [List.reverse_cons, List.dropWhile_append]
    simp [h, List.dropWhile_cons, hb]
  · refine ⟨(c :: v).reverse, ?_⟩
    rw [List.reverse_cons, List.dropWhile_append]
    simp [h]

theorem trimR_append_nonws {w y : List Char}
    (hy : ∃ c ∈ y, isWs c = false) : trimR (w ++ y) = w ++ trimR y := by
  unfold trimR
  rw [List.reverse_append, List.dropWhile_append]
  have hne : y.reverse.dropWhile isWs ≠ [] := by
    rw [Ne, List.dropWhile_eq_nil_iff]
    intro hall
    rcases hy with ⟨c, hc, hcf⟩
    have := hall c (List.mem_reverse.2 hc)
    simp [hcf] at this
  rw [if_neg (by simpa [List.isEmpty_iff] using hne)]
  rw [List.reverse_append, List.reverse_reverse]

theorem trimL_trimR_comm (s : List Char) : trimL (trimR s) = trimR (trimL s) := by
  cases h : trimL s with
  | nil =>
    have hall : ∀ c ∈ s, isWs c := (trimL_eq_nil_iff s).1 h
    have hR : trimR s = [] := (trimR_eq_nil_iff s).2 hall
    rw [hR]
    rfl
  | cons b u =>
    have h2 : s.dropWhile isWs = b :: u := h
    have hb : isWs b = false := by
      have hne : s.dropWhile isWs ≠ [] := by simp [h2]
      have := List.head_dropWhile_not isWs s hne
      simpa [h2] using this
    have hsplit : s.takeWhile isWs ++ (b :: u) = s := by
      rw [← h]; exact List.takeWhile_append_dropWhile isWs s
    have hw : ∀ c ∈ s.takeWhile isWs, isWs c := fun c hc => List.mem_takeWhile_imp hc
    have hR : trimR s = s.takeWhile isWs ++ trimR (b :: u) := by
      conv_lhs => rw [← hsplit]
      exact trimR_append_nonws ⟨b, List.mem_cons_self b u, hb⟩
    rcases trimR_cons_not_ws u hb with ⟨z, hz⟩
    rw [hR, hz]
    show (s.takeWhile isWs ++ b :: z).dropWhile isWs = b :: z
    rw [List.dropWhile_append]
    have hwnil : (s.takeWhile isWs).dropWhile isWs = [] :=
      List.dropWhile_eq_nil_iff.2 hw
    simp [hwnil, List.dropWhile_cons, hb]

theorem trimL_trim (s : List Char) : trimL (trim s) = trim s := by
  unfold trim
  rw [trimL_trimR_comm, trimL_idem]

theorem trimR_trim (s : List Char) : trimR (trim s) = trim s := by
  unfold trim
  rw [trimR_idem]

theorem trim_idem (s : List Char) : trim (trim s) = trim s := by
  conv_lhs => rw [trim, trimL_trim, trimR_trim]

theorem trim_trimR (s : List Char) : trim (trimR s) = trim s := by
  rw [trim, trimL_trimR_comm, trimR_idem, ← trim]

theorem trimL_suffix (s : List Char) : trimL s <:+ s :=
  List.dropWhile_suffix isWs

theorem prefixOfTrimR (s : List Char) : trimR s <+: s := by
  have h : s.reverse.dropWhile isWs <:+ s.reverse := List.dropWhile_suffix isWs
  have := List.reverse_prefix.2 h
  simpa [trimR] using this

theorem infixOfTrim (s : List Char) : trim s <:+: s :=
  ((prefixOfTrimR (trimL s)).isInfix).trans (trimL_suffix s).isInfix

/- ### Trim-cleanliness and the merge rule -/

theorem trimL_of_trim_eq {s : List Char} (h : trim s = s) : trimL s = s := by
  conv_lhs => rw [← h]
  rw [trimL_trim]
  exact h

theorem trimR_of_trim_eq {s : List Char} (h : trim s = s) : trimR s = s := by
  conv_lhs => rw [← h]
  rw [trimR_trim]
  exact h

theorem rev_dropWhile_of_trimR_eq {s : List Char} (h : trimR s = s) :
    s.reverse.dropWhile isWs = s.reverse := by
  have h2 := congrArg List.reverse h
  simpa [trimR] using h2

theorem trim_append_space {a b : List Char} (ha : trim a = a) (hb : trim b = b)
    (hna : a ≠ []) (hnb : b ≠ []) : trim (a ++ [' '] ++ b) = a ++ [' '] ++ b := by
  have haL : trimL a = a := trimL_of_trim_eq ha
  have hbR : b.reverse.dropWhile isWs = b.reverse :=
    rev_dropWhile_of_trimR_eq (trimR_of_trim_eq hb)
  have hL : trimL (a ++ [' '] ++ b) = a ++ [' '] ++ b := by
    show (a ++ [' '] ++ b).dropWhile isWs = a ++ [' '] ++ b
    rw [List.append_assoc, List.dropWhile_append]
    have haL2 : a.dropWhile isWs = a := haL
    rw [haL2]
    simp [List.isEmpty_iff, hna, List.append_assoc]
  have hR : trimR (a ++ [' '] ++ b) = a ++ [' '] ++ b := by
    show ((a ++ [' '] ++ b).reverse.dropWhile isWs).reverse = a ++ [' '] ++ b
    rw [List.reverse_append, List.reverse_append, List.dropWhile_append, hbR]
    have hbe : b.reverse.isEmpty = false := by
      simp [List.isEmpty_iff, hnb]
    rw [hbe]
    simp
  show trimR (trimL (a ++ [' '] ++ b)) = a ++ [' '] ++ b
  rw [hL]
  exact hR

theorem trim_mergeFragment {s : List Char} (hs : trim s = s) (c : List Char) :
    trim (mergeFragment s c) = mergeFragment s c := by
  unfold mergeFragment
  split_ifs with h1 h2 h3 h4 h5 h6 h7
  · exact hs
  · exact hs
  · exact hs
  · exact hs
  · subst h6
    simpa using trim_idem ((trim c).drop (trim ([] : List Char)).length)
  · exact trim_append_space hs (trim_idem _) h6 h5
  · subst h7
    simpa using trim_idem c
  · exact trim_append_space hs (trim_idem _) h7 h1

theorem mergeFragment_prefix (s c : List Char) : s <+: mergeFragment s c := by
  unfold mergeFragment
  split_ifs <;> first
  | exact List.prefix_rfl
  | (rw [List.append_assoc]; exact List.prefix_append s _)

theorem mergeFragment_nil_trim {c : List Char} (h : trim c = []) (s : List Char) :
    mergeFragment s c = s := by
  unfold mergeFragment
  rw [if_pos h]

theorem mergeFragment_of_infix {s c : List Char} (h : trim c <:+: s) :
    mergeFragment s c = s := by
  unfold mergeFragment
  by_cases h1 : trim c = []
  · rw [if_pos h1]
  · rw [if_neg h1]
    by_cases h2 : trim s = trim c
    · rw [if_pos h2]
    · rw [if_neg h2, if_pos h]

/- ### Claims C1, C2, C3, C10 -/

/-- Claim C1, corrected statement: the merge rule is idempotent whenever,
after the first application, the trimmed fragment text occurs as a
substring of the merged `visibleText` (this covers the duplicate-skip
branches and the plain-append branch; it can fail only in the superset
branch, see `c1_counterexample`). -/
theorem c1_merge_idempotent_of_infix (s c : List Char)
    (h : trim c = [] ∨ trim c <:+: mergeFragment s c) :
    mergeFragment (mergeFragment s c) c = mergeFragment s c := by
  rcases h with h | h
  · exact mergeFragment_nil_trim h _
  · exact mergeFragment_of_infix h

/-- Witness for C1: merging the fragment `"Hello"` into the empty state and
re-applying it is a no-op after the first application. -/
theorem c1_merge_idempotent_of_infix_witness :
    (trim "Hello".toList = [] ∨ trim "Hello".toList <:+: mergeFragment [] "Hello".toList) ∧
      mergeFragment (mergeFragment [] "Hello".toList) "Hello".toList =
        mergeFragment [] "Hello".toList :=
  ⟨Or.inr (by decide), c1_merge_idempotent_of_infix [] "Hello".toList (Or.inr (by decide))⟩

/-- Counterexample to C1 as stated: starting from the reachable accumulated
state obtained from the single fragment `"bc"`, applying the fragment
`"abcd"` once gives `"bc cd"`, and applying it a second time gives
`"bc cd abcd"` — re-applying the same fragment does change `visibleText`. -/
theorem c1_counterexample :
    mergeFragment (mergeFragment (mergeAll ["bc".toList]) "abcd".toList) "abcd".toList ≠
      mergeFragment (mergeAll ["bc".toList]) "abcd".toList := by decide

/-- Claim C2, corrected statement: the merge rule only ever extends the raw
accumulated `visibleText` — after applying any further fragment the previous
raw `visibleText` is a prefix (hence a substring) of the result.  The
claim's stronger property, that the *stripped* previous text stays a
substring, fails (see `c2_counterexample`). -/
theorem c2_merge_monotone (s c : List Char) : s <+: mergeFragment s c :=
  mergeFragment_prefix s c

/-- Counterexample to C2 as stated: after the fragment
`"Hello <think>x</think> world"` the stripped text is `"Hello  world"`
(double space), which is not a substring of the accumulated `visibleText`
after the further fragment `"foo"` is applied. -/
theorem c2_counterexample :
    ¬ (processAIResponse (mergeAll ["Hello <think>x</think> world".toList])).mainContent <:+:
        mergeAll ["Hello <think>x</think> world".toList, "foo".toList] := by decide

theorem trim_eq_nil_iff (s : List Char) : trim s = [] ↔ ∀ c ∈ s, isWs c := by
  constructor
  · intro h c hc
    have h1 : ∀ d ∈ trimL s, isWs d := (trimR_eq_nil_iff (trimL s)).1 h
    have hsplit : s.takeWhile isWs ++ trimL s = s := List.takeWhile_append_dropWhile isWs s
    rw [← hsplit] at hc
    rcases List.mem_append.1 hc with hc | hc
    · exact List.mem_takeWhile_imp hc
    · exact h1 c hc
  · intro h
    have h0 : trimL s = [] := (trimL_eq_nil_iff s).2 h
    rw [trim, h0]
    rfl

theorem trim_ne_nil_of_mem {s : List Char} {c : Char} (hc : c ∈ s)
    (hw : isWs c = false) : trim s ≠ [] := by
  intro h
  have := (trim_eq_nil_iff s).1 h c hc
  simp [hw] at this

theorem head_not_ws_of_dropWhile_eq {b : Char} {u : List Char}
    (h : (b :: u).dropWhile isWs = b :: u) : isWs b = false := by
  by_contra hb
  have hb2 : isWs b = true := by simpa using hb
  rw [List.dropWhile_cons, hb2] at h
  simp only [if_true] at h
  have hlen := congrArg List.length h
  have hle : (u.dropWhile isWs).length ≤ u.length := (List.dropWhile_suffix isWs).length_le
  simp only [List.length_cons] at hlen
  omega

theorem trim_suffix_ne_nil {s suffix : List Char} (h : trim (s ++ suffix) = s ++ suffix)
    (hsuf : suffix ≠ []) : trim suffix ≠ [] := by
  rcases hrev : suffix.reverse with _ | ⟨b, u⟩
  · exact absurd (by simpa using congrArg List.reverse hrev) hsuf
  · have hR : (s ++ suffix).reverse.dropWhile isWs = (s ++ suffix).reverse :=
      rev_dropWhile_of_trimR_eq (trimR_of_trim_eq h)
    rw [List.reverse_append, hrev] at hR
    have hR2 : (b :: (u ++ s.reverse)).dropWhile isWs = b :: (u ++ s.reverse) := by
      rw [← List.cons_append]
      exact hR
    have hb : isWs b = false := head_not_ws_of_dropWhile_eq hR2
    have hbmem : b ∈ suffix := by
      have hbm : b ∈ suffix.reverse := by rw [hrev]; exact List.mem_cons_self b u
      exact List.mem_reverse.1 hbm
    exact trim_ne_nil_of_mem hbmem hb

/-- Claim C3, corrected statement: in the superset branch the merge rule
appends (joined by a single space) the trimmed remainder of the candidate
after its first `length (trim visibleText)` characters — i.e. the
`slice`-based suffix, which equals the text after the occurrence only when
`visibleText` occurs at the start of the candidate.  Here the occurrence is
assumed to be at the start (`trim c = s ++ suffix`). -/
theorem c3_superset_merge (s c suffix : List Char) (hs : trim s = s) (hne : s ≠ [])
    (hdec : trim c = s ++ suffix) (hsuf : suffix ≠ []) :
    mergeFragment s c = s ++ [' '] ++ trim suffix := by
  have htc : trim c ≠ [] := by rw [hdec]; simp [hne]
  have hneq : trim s ≠ trim c := by
    rw [hs, hdec]
    intro hh
    have hlen := congrArg List.length hh
    rw [List.length_append] at hlen
    have h0 : suffix.length = 0 := by omega
    exact hsuf (List.eq_nil_of_length_eq_zero h0)
  have hnotinf : ¬ trim c <:+: s := by
    intro hinf
    have hlen := hinf.sublist.length_le
    rw [hdec, List.length_append] at hlen
    have h0 : 0 < suffix.length := List.length_pos.2 hsuf
    omega
  have hsup : trim s <:+: trim c := by
    rw [hs, hdec]
    exact (List.prefix_append s suffix).isInfix
  have hextra : trim ((trim c).drop (trim s).length) = trim suffix := by
    rw [hs, hdec, List.drop_left]
  have hextra_ne : trim suffix ≠ [] :=
    trim_suffix_ne_nil (by rw [← hdec]; exact trim_idem c) hsuf
  unfold mergeFragment
  rw [if_neg htc, if_neg hneq, if_neg hnotinf, if_pos hsup, hextra, if_neg hextra_ne,
    if_neg hne]

/-- Witness for C3: state `"Hello"`, candidate `"Hello world"` — the merge
appends the space-joined trimmed slice `"world"`. -/
theorem c3_superset_merge_witness :
    (trim "Hello".toList = "Hello".toList ∧ "Hello".toList ≠ ([] : List Char) ∧
      trim "Hello world".toList = "Hello".toList ++ " world".toList ∧
      " world".toList ≠ ([] : List Char)) ∧
      mergeFragment "Hello".toList "Hello world".toList =
        "Hello".toList ++ [' '] ++ trim " world".toList :=
  ⟨⟨by decide, by decide, by decide, by decide⟩,
    c3_superset_merge "Hello".toList "Hello world".toList " world".toList
      (by decide) (by decide) (by decide) (by decide)⟩

/-- Counterexample to C3 as stated: with accumulated `visibleText` `"bc"`
(reachable from the single fragment `"bc"`) and candidate `"abcd"`
(`"bc"` occurs at index 1), the code appends the slice `"cd"` giving
`"bc cd"`, not the after-the-occurrence suffix `"d"` (neither `"bcd"` nor
`"bc d"`). -/
theorem c3_counterexample :
    mergeFragment (mergeAll ["bc".toList]) "abcd".toList = "bc cd".toList ∧
      mergeFragment (mergeAll ["bc".toList]) "abcd".toList ≠ "bc".toList ++ "d".toList ∧
      mergeFragment (mergeAll ["bc".toList]) "abcd".toList ≠
        "bc".toList ++ [' '] ++ "d".toList := by decide

/-- Claim C10: after every application of the merge rule the accumulated
`visibleText` has no leading or trailing whitespace — every state reachable
by folding the merge rule over a fragment sequence equals its own trim. -/
theorem c10_visibleText_trim_clean (frags : List (List Char)) :
    trim (mergeAll frags) = mergeAll frags := by
  have h : ∀ s, trim s = s →
      trim (frags.foldl mergeFragment s) = frags.foldl mergeFragment s := by
    induction frags with
    | nil => intro s hs; exact hs
    | cons c rest ih =>
      intro s hs
      exact ih _ (trim_mergeFragment hs c)
  exact h [] rfl

/- ### The reconciliation state machine: claims C4, C7, C8, C9 -/

/-- Loop invariant of the per-record loop: the watermark is a prefix of the
raw accumulated text (it lags behind across `continue`-skipped merges), a
push implies the accumulated text is non-empty, and every incremental frame
is a streaming frame. -/
def StateInv (st : RecState) : Prop :=
  st.lastSent <+: st.fullResponse ∧
    (st.firstMessageSent = true → st.fullResponse ≠ []) ∧
    (∀ e ∈ st.sent, e.isStreaming = true)

theorem stateInv_init : StateInv initState := by
  refine ⟨List.prefix_rfl, ?_, ?_⟩
  · intro h
    simp [initState] at h
  · intro e he
    simp [initState] at he

theorem stateInv_stepFragment {st : RecState} (h : StateInv st) (c : List Char) :
    StateInv (stepFragment st c) := by
  obtain ⟨h1, h2, h3⟩ := h
  have hpre : st.fullResponse <+: mergeFragment st.fullResponse c :=
    mergeFragment_prefix st.fullResponse c
  have hne : st.fullResponse ≠ [] → mergeFragment st.fullResponse c ≠ [] := by
    intro hnil hfr
    rw [hfr] at hpre
    exact hnil (List.prefix_nil.1 hpre)
  unfold stepFragment
  split_ifs with hc hp
  · exact ⟨h1.trans hpre, fun hf => hne (h2 hf), h3⟩
  · refine ⟨List.prefix_rfl, ?_, ?_⟩
    · intro _ hfr
      have hfr2 : mergeFragment st.fullResponse c = [] := hfr
      apply hp
      have h0 : st.fullResponse = [] := List.prefix_nil.1 (hfr2 ▸ hpre)
      have h00 : st.lastSent = [] := List.prefix_nil.1 (h0 ▸ h1)
      rw [hfr2, h00]
    · intro e he
      rcases List.mem_append.1 he with he | he
      · exact h3 e he
      · simp at he
        rw [he]
  · exact ⟨h1.trans hpre, fun hf => hne (h2 hf), h3⟩

theorem stateInv_updateConversationId {st : RecState} (h : StateInv st) (e : ParsedEvent) :
    StateInv (updateConversationId st e) := by
  obtain ⟨h1, h2, h3⟩ := h
  unfold updateConversationId
  split_ifs
  · exact ⟨h1, h2, h3⟩
  · exact ⟨h1, h2, h3⟩

theorem stateInv_stepLine {st : RecState} (h : StateInv st) (r : RawRecord) :
    StateInv (stepLine st r) := by
  cases r with
  | malformed => exact h
  | parsed e => exact stateInv_stepFragment (stateInv_updateConversationId h e) _

theorem stateInv_foldl (records : List RawRecord) :
    ∀ st, StateInv st → StateInv (records.foldl stepLine st) := by
  induction records with
  | nil => intro st h; exact h
  | cons r rest ih => intro st h; exact ih _ (stateInv_stepLine h r)

theorem stateInv_runLines (records : List RawRecord) : StateInv (runLines records) :=
  stateInv_foldl records initState stateInv_init

theorem mockResponseText_ne_nil (message : List Char) : mockResponseText message ≠ [] := by
  unfold mockResponseText
  split_ifs <;> try decide
  intro h
  exact absurd (List.append_eq_nil.mp (List.append_eq_nil.mp h).1).1 (by decide)

/-- Claim C4, corrected statement: an incremental update is pushed after a
record only when the merge fell through to the send check — a plain append,
or a record carrying no usable text — and the raw accumulated text differs
from the raw watermark `lastSent`.  The dedup branches (exact match,
already contained, superset — the latter taken by every first fragment,
since the empty text is a substring of anything) `continue` past the check
and push nothing even when they change the text, and no gating on stripped
text occurs anywhere; a pushed frame carries the freshly stripped text and
reasoning list. -/
theorem c4_emission_gating (st : RecState) (c : List Char) :
    (stepFragment st c).sent =
      st.sent ++
        (if mergeContinues st.fullResponse c then []
         else if mergeFragment st.fullResponse c = st.lastSent then []
         else [⟨(processAIResponse (mergeFragment st.fullResponse c)).mainContent,
           (processAIResponse (mergeFragment st.fullResponse c)).thinks, true⟩]) ∧
      (stepFragment st c).fullResponse = mergeFragment st.fullResponse c := by
  constructor
  · unfold stepFragment
    split_ifs <;> simp_all
  · unfold stepFragment
    split_ifs <;> rfl

/-- Counterexample to C4 as stated, refuting both directions of the iff:
the single record `"A"` changes the stripped text from `""` to `"A"` yet
pushes nothing (the superset branch, taken by every first fragment, skips
the send check); and the records `"A"`, `"<think>x"`, `"<think>y"` produce
two pushes whose stripped contents are both `"A"` — the second push occurs
although the stripped text is unchanged. -/
theorem c4_counterexample :
    ((runLines [RawRecord.parsed ⟨some "A".toList, none, none, none, none⟩]).sent = [] ∧
      (processAIResponse
        (runLines [RawRecord.parsed ⟨some "A".toList, none, none, none, none⟩]).fullResponse).mainContent =
        "A".toList) ∧
      (runLines [RawRecord.parsed ⟨some "A".toList, none, none, none, none⟩,
        RawRecord.parsed ⟨some "<think>x".toList, none, none, none, none⟩,
        RawRecord.parsed ⟨some "<think>y".toList, none, none, none, none⟩]).sent.map
          Emit.content = ["A".toList, "A".toList] := by decide

/-- Claim C7, corrected statement: a record sequence with no explicit
final event still finalizes on stream exhaustion, provided at least one
incremental push occurred during streaming (`firstMessageSent`): exactly
one final push (a non-streaming frame) and exactly one persistence call are
made, no fallback is taken, and every earlier frame was a streaming frame.
Non-empty accumulated text alone does not suffice: if every content record
took a dedup/superset `continue` path nothing was ever pushed, and the code
falls back instead (see `c7_counterexample`). -/
theorem c7_finalize_on_silence (records : List RawRecord)
    (h : (runLines records).firstMessageSent = true) :
    (runStream records).finalPushes.length = 1 ∧
      (runStream records).persists.length = 1 ∧
      (runStream records).fallback = false ∧
      (∀ e ∈ (runStream records).finalPushes, e.isStreaming = false) ∧
      (∀ e ∈ (runStream records).incremental, e.isStreaming = true) := by
  have hinv := stateInv_runLines records
  unfold runStream finalizeStream
  rw [if_pos ⟨hinv.2.1 h, h⟩]
  refine ⟨rfl, rfl, rfl, ?_, ?_⟩
  · intro e he
    simp at he
    rw [he]
  · exact hinv.2.2

/-- Witness for C7: the record `"Hello"` followed by a content-less record
(as a lifecycle event carries no text).  The first record merges without a
push; the content-less record falls through to the send check, which
pushes, so `firstMessageSent` holds and exhaustion finalizes exactly once. -/
theorem c7_finalize_on_silence_witness :
    (runLines [RawRecord.parsed ⟨some "Hello".toList, none, none, none, none⟩,
        RawRecord.parsed ⟨none, none, none, none, none⟩]).firstMessageSent = true ∧
      (runStream [RawRecord.parsed ⟨some "Hello".toList, none, none, none, none⟩,
        RawRecord.parsed ⟨none, none, none, none, none⟩]).finalPushes.length = 1 ∧
      (runStream [RawRecord.parsed ⟨some "Hello".toList, none, none, none, none⟩,
        RawRecord.parsed ⟨none, none, none, none, none⟩]).persists.length = 1 ∧
      (runStream [RawRecord.parsed ⟨some "Hello".toList, none, none, none, none⟩,
        RawRecord.parsed ⟨none, none, none, none, none⟩]).fallback = false ∧
      (∀ e ∈ (runStream [RawRecord.parsed ⟨some "Hello".toList, none, none, none, none⟩,
        RawRecord.parsed ⟨none, none, none, none, none⟩]).finalPushes,
        e.isStreaming = false) ∧
      (∀ e ∈ (runStream [RawRecord.parsed ⟨some "Hello".toList, none, none, none, none⟩,
        RawRecord.parsed ⟨none, none, none, none, none⟩]).incremental,
        e.isStreaming = true) :=
  ⟨by decide,
    c7_finalize_on_silence [RawRecord.parsed ⟨some "Hello".toList, none, none, none, none⟩,
      RawRecord.parsed ⟨none, none, none, none, none⟩] (by decide)⟩

/-- Counterexample to C7 as stated: the single content record `"Hello"`
leaves a non-empty accumulated text, but the superset branch (taken by
every first fragment) skipped the send check, so nothing was ever pushed;
at end of stream `firstMessageSent` is still false, the finalize branch is
skipped, and the code falls back to the mock responder — zero final pushes
and zero persistence calls for the accumulated answer. -/
theorem c7_counterexample :
    (runLines [RawRecord.parsed ⟨some "Hello".toList, none, none, none, none⟩]).fullResponse ≠ [] ∧
      (runStream [RawRecord.parsed ⟨some "Hello".toList, none, none, none, none⟩]).finalPushes = [] ∧
      (runStream [RawRecord.parsed ⟨some "Hello".toList, none, none, none, none⟩]).persists = [] ∧
      (runStream [RawRecord.parsed ⟨some "Hello".toList, none, none, none, none⟩]).fallback = true := by
  decide

/-- Claim C8: if the stream ends with an empty accumulated text, nothing is
persisted, no final frame is pushed, the fallback obligation is signalled,
and the fallback responder performs its own single final emission and
single persistence. -/
theorem c8_empty_result_fallback (records : List RawRecord) (message : List Char)
    (h : (runLines records).fullResponse = []) :
    (runStream records).finalPushes = [] ∧ (runStream records).persists = [] ∧
      (runStream records).fallback = true ∧
      (mockAIResponse message).finalPushes.length = 1 ∧
      (mockAIResponse message).persists.length = 1 := by
  have hcond : ¬ ((runLines records).fullResponse ≠ [] ∧
      (runLines records).firstMessageSent = true) := by
    intro hcon
    exact hcon.1 h
  constructor
  · unfold runStream finalizeStream
    rw [if_neg hcond]
  constructor
  · unfold runStream finalizeStream
    rw [if_neg hcond]
  constructor
  · unfold runStream finalizeStream
    rw [if_neg hcond]
  constructor
  · unfold mockAIResponse
    rw [if_neg (mockResponseText_ne_nil message)]
    rfl
  · rfl

/-- Witness for C8: the empty record sequence leaves the accumulated text
empty, so the reconciler persists nothing and the fallback responder for
the message `"hi"` emits and persists on its own. -/
theorem c8_empty_result_fallback_witness :
    (runLines ([] : List RawRecord)).fullResponse = [] ∧
      (runStream ([] : List RawRecord)).finalPushes = [] ∧
      (runStream ([] : List RawRecord)).persists = [] ∧
      (runStream ([] : List RawRecord)).fallback = true ∧
      (mockAIResponse "hi".toList).finalPushes.length = 1 ∧
      (mockAIResponse "hi".toList).persists.length = 1 :=
  ⟨rfl, c8_empty_result_fallback [] "hi".toList rfl⟩

/-- Claim C9: a record that fails structured decode is dropped — it leaves
the whole reconciliation state unchanged, and a stream containing it
reconciles exactly like the stream without it. -/
theorem c9_malformed_tolerance (pre post : List RawRecord) :
    stepLine (runLines pre) RawRecord.malformed = runLines pre ∧
      runLines (pre ++ RawRecord.malformed :: post) = runLines (pre ++ post) := by
  constructor
  · rfl
  · unfold runLines
    rw [List.foldl_append, List.foldl_append, List.foldl_cons]
    rfl

/- ### Substring search and the reasoning extractor: claims C5, C6 -/

theorem noBorder_thinkOpenTag : noBorder thinkOpenTag := by
  unfold noBorder
  decide

theorem noBorder_thinkCloseTag : noBorder thinkCloseTag := by
  unfold noBorder
  decide

theorem findSub_eq_none {pat s : List Char} (hne : pat ≠ []) (h : ¬ pat <:+: s) :
    findSub pat s = none := by
  induction s with
  | nil => simp [findSub, hne]
  | cons a t ih =>
    rw [findSub, if_neg ?_, ih ?_]
    · rfl
    · intro hinf
      exact h (List.infix_cons hinf)
    · intro hpre
      exact h (List.isPrefixOf_iff_prefix.1 hpre).isInfix

theorem not_prefix_append_of_noBorder {pat v t : List Char}
    (hnb : noBorder pat) (hni : ¬ pat <:+: v) (hv : v ≠ []) :
    ¬ pat <+: v ++ (pat ++ t) := by
  intro hpre
  rcases hpre with ⟨r, hr⟩
  by_cases hlen : pat.length ≤ v.length
  · apply hni
    have h2 : (pat ++ r).take pat.length = (v ++ (pat ++ t)).take pat.length := by rw [hr]
    rw [List.take_left, List.take_append_of_le_length hlen] at h2
    rw [h2]
    exact (List.take_prefix pat.length v).isInfix
  · push_neg at hlen
    have hj1 : 0 < v.length := List.length_pos.2 hv
    have h3 : (pat ++ r).drop v.length = (v ++ (pat ++ t)).drop v.length := by rw [hr]
    rw [List.drop_append_of_le_length (Nat.le_of_lt hlen), List.drop_left] at h3
    have h4 : (pat.drop v.length ++ r).take (pat.length - v.length) =
        (pat ++ t).take (pat.length - v.length) := by rw [h3]
    rw [List.take_append_of_le_length (by simp [List.length_drop]),
      List.take_append_of_le_length (by omega)] at h4
    rw [show pat.length - v.length = (pat.drop v.length).length by simp [List.length_drop],
      List.take_length] at h4
    have h5 := hnb (pat.length - v.length) (by omega) (by omega)
    rw [show pat.length - (pat.length - v.length) = v.length by omega] at h5
    rw [show (pat.drop v.length).length = pat.length - v.length by
      simp [List.length_drop]] at h4
    exact h5 h4.symm

theorem findSub_append_self {pat v t : List Char} (hne : pat ≠ [])
    (hnb : noBorder pat) (hni : ¬ pat <:+: v) :
    findSub pat (v ++ (pat ++ t)) = some v.length := by
  induction v with
  | nil =>
    rcases hp : pat with _ | ⟨p, ps⟩
    · exact absurd hp hne
    · show findSub (p :: ps) ([] ++ ((p :: ps) ++ t)) = some 0
      rw [List.nil_append, List.cons_append, findSub, if_pos ?_]
      exact List.isPrefixOf_iff_prefix.2 (by rw [← List.cons_append]; exact List.prefix_append _ _)
  | cons a v2 ih =>
    have hni2 : ¬ pat <:+: v2 := fun hinf => hni (List.infix_cons hinf)
    rw [List.cons_append, findSub, if_neg ?_, ih hni2]
    · rfl
    · intro hpre
      exact not_prefix_append_of_noBorder hnb hni (List.cons_ne_nil a v2)
        (by rw [List.cons_append]; exact List.isPrefixOf_iff_prefix.1 hpre)

theorem removeAllF_no_match {pat s : List Char} (hne : pat ≠ []) (h : ¬ pat <:+: s) :
    ∀ fuel, removeAllF pat fuel s = s := by
  intro fuel
  cases fuel with
  | zero => rfl
  | succ n => simp [removeAllF, findSub_eq_none hne h]

theorem removeAll_no_match {pat s : List Char} (hne : pat ≠ []) (h : ¬ pat <:+: s) :
    removeAll pat s = s :=
  removeAllF_no_match hne h s.length

theorem joinVis_append (parts : List (List Char × List Char)) (x y : List Char) :
    joinVis parts (x ++ y) = joinVis parts x ++ y := by
  induction parts with
  | nil => rfl
  | cons p rest ih =>
    rcases p with ⟨v, c⟩
    simp [joinVis, ih, List.append_assoc]

theorem fst_infix_joinVis {p : List Char × List Char} :
    ∀ (parts : List (List Char × List Char)) (final : List Char), p ∈ parts →
      p.1 <:+: joinVis parts final := by
  intro parts
  induction parts with
  | nil =>
    intro final hp
    simp at hp
  | cons q rest ih =>
    intro final hp
    rcases List.mem_cons.1 hp with h | h
    · subst h
      show p.1 <:+: p.1 ++ joinVis rest final
      exact (List.prefix_append p.1 (joinVis rest final)).isInfix
    · exact (ih final h).trans (List.suffix_append q.1 (joinVis rest final)).isInfix

theorem final_infix_joinVis :
    ∀ (parts : List (List Char × List Char)) (final : List Char),
      final <:+: joinVis parts final := by
  intro parts
  induction parts with
  | nil => intro final; exact List.infix_refl final
  | cons q rest ih =>
    intro final
    exact (ih final).trans (List.suffix_append q.1 (joinVis rest final)).isInfix

theorem length_renderSegs_ge (parts : List (List Char × List Char)) (final : List Char) :
    parts.length ≤ (renderSegs parts final).length := by
  induction parts with
  | nil => simp [renderSegs]
  | cons q rest ih =>
    rcases q with ⟨v, c⟩
    have h7 : thinkOpenTag.length = 7 := rfl
    have h8 : thinkCloseTag.length = 8 := rfl
    simp only [renderSegs, List.length_append, List.length_cons, h7, h8]
    omega

theorem extractCompleteF_renderSegs :
    ∀ (parts : List (List Char × List Char)) (final : List Char),
      (∀ p ∈ parts, ¬ thinkOpenTag <:+: p.1) →
      (∀ p ∈ parts, ¬ thinkCloseTag <:+: p.2) →
      (∀ i, findSub thinkOpenTag final = some i →
        findSub thinkCloseTag (final.drop (i + 7)) = none) →
      ∀ fuel, parts.length ≤ fuel →
        extractCompleteF fuel (renderSegs parts final) =
          (joinVis parts final, parts.map Prod.snd) := by
  intro parts
  induction parts with
  | nil =>
    intro final _ _ hfin fuel _
    show extractCompleteF fuel final = (final, [])
    cases fuel with
    | zero => rfl
    | succ n =>
      cases hf : findSub thinkOpenTag final with
      | none => simp [extractCompleteF, hf]
      | some i => simp [extractCompleteF, hf, hfin i hf]
  | cons q rest ih =>
    rcases q with ⟨v, c⟩
    intro final hv hc hfin fuel hfuel
    cases fuel with
    | zero => simp at hfuel
    | succ n =>
      have hv1 : ¬ thinkOpenTag <:+: v := hv (v, c) (List.mem_cons_self _ _)
      have hc1 : ¬ thinkCloseTag <:+: c := hc (v, c) (List.mem_cons_self _ _)
      have hshape : renderSegs ((v, c) :: rest) final =
          v ++ (thinkOpenTag ++ (c ++ (thinkCloseTag ++ renderSegs rest final))) := by
        simp [renderSegs, List.append_assoc]
      have hfind1 : findSub thinkOpenTag (renderSegs ((v, c) :: rest) final) =
          some v.length := by
        rw [hshape]
        exact findSub_append_self (by decide) noBorder_thinkOpenTag hv1
      have hdrop1 : (renderSegs ((v, c) :: rest) final).drop (v.length + 7) =
          c ++ (thinkCloseTag ++ renderSegs rest final) := by
        rw [hshape, List.drop_append 7]
        exact List.drop_left' rfl
      have htake1 : (renderSegs ((v, c) :: rest) final).take v.length = v := by
        rw [hshape]
        exact List.take_left v _
      have hfind2 : findSub thinkCloseTag (c ++ (thinkCloseTag ++ renderSegs rest final)) =
          some c.length :=
        findSub_append_self (by decide) noBorder_thinkCloseTag hc1
      have htake2 : (c ++ (thinkCloseTag ++ renderSegs rest final)).take c.length = c :=
        List.take_left c _
      have hdrop2 : (c ++ (thinkCloseTag ++ renderSegs rest final)).drop (c.length + 8) =
          renderSegs rest final := by
        rw [List.drop_append 8]
        exact List.drop_left' rfl
      have hrec : extractCompleteF n (renderSegs rest final) =
          (joinVis rest final, rest.map Prod.snd) := by
        apply ih final (fun p hp => hv p (List.mem_cons_of_mem _ hp))
          (fun p hp => hc p (List.mem_cons_of_mem _ hp)) hfin n
        simp only [List.length_cons] at hfuel
        omega
      simp only [extractCompleteF, hfind1, hdrop1, hfind2, hdrop2, htake1, htake2, hrec]
      simp [joinVis]

theorem extractComplete_renderSegs (parts : List (List Char × List Char)) (final : List Char)
    (hv : ∀ p ∈ parts, ¬ thinkOpenTag <:+: p.1)
    (hc : ∀ p ∈ parts, ¬ thinkCloseTag <:+: p.2)
    (hfin : ∀ i, findSub thinkOpenTag final = some i →
      findSub thinkCloseTag (final.drop (i + 7)) = none) :
    extractComplete (renderSegs parts final) = (joinVis parts final, parts.map Prod.snd) :=
  extractCompleteF_renderSegs parts final hv hc hfin _ (length_renderSegs_ge parts final)

theorem foldl_addThink_eq :
    ∀ (l : List (List Char)) (acc : List (List Char)),
      (∀ x ∈ l, trim x ≠ []) → (∀ x ∈ l, trim x ∉ acc) → (l.map trim).Nodup →
      l.foldl addThink acc = acc ++ l.map trim := by
  intro l
  induction l with
  | nil =>
    intro acc _ _ _
    simp
  | cons x rest ih =>
    intro acc h1 h2 h3
    rw [List.foldl_cons]
    have hx : addThink acc x = acc ++ [trim x] := by
      unfold addThink
      rw [if_neg (h1 x (List.mem_cons_self _ _)), if_neg (h2 x (List.mem_cons_self _ _))]
    have h3c : (∀ y ∈ rest, ¬ trim y = trim x) ∧ (rest.map trim).Nodup := by
      simpa using h3
    rw [hx, ih (acc ++ [trim x]) (fun y hy => h1 y (List.mem_cons_of_mem _ hy)) ?_ h3c.2]
    · simp
    · intro y hy hmem
      rcases List.mem_append.1 hmem with hm | hm
      · exact h2 y (List.mem_cons_of_mem _ hy) hm
      · simp at hm
        exact h3c.1 y hy hm

/-- Claim C5, corrected statement: for a text decomposed into well-formed
reasoning sections whose surrounding visible text is free of marker tokens
(also across removal boundaries) and whose trimmed contents are non-empty
and pairwise distinct, the extractor returns exactly the N trimmed contents
in original order and a visible text with zero marker tokens remaining.
Sections with whitespace-only content are dropped (see
`c5_counterexample`), which is why non-emptiness is required. -/
theorem c5_extraction_roundtrip (parts : List (List Char × List Char)) (final : List Char)
    (hvo : ¬ thinkOpenTag <:+: joinVis parts final)
    (hvc : ¬ thinkCloseTag <:+: joinVis parts final)
    (hcc : ∀ p ∈ parts, ¬ thinkCloseTag <:+: p.2)
    (hne : ∀ p ∈ parts, trim p.2 ≠ [])
    (hnd : (parts.map (fun p => trim p.2)).Nodup) :
    (processAIResponse (renderSegs parts final)).thinks =
        parts.map (fun p => trim p.2) ∧
      (processAIResponse (renderSegs parts final)).thinks.length = parts.length ∧
      ¬ thinkOpenTag <:+: (processAIResponse (renderSegs parts final)).mainContent ∧
      ¬ thinkCloseTag <:+: (processAIResponse (renderSegs parts final)).mainContent := by
  have hv : ∀ p ∈ parts, ¬ thinkOpenTag <:+: p.1 := fun p hp hinf =>
    hvo (hinf.trans (fst_infix_joinVis parts final hp))
  have hfo : ¬ thinkOpenTag <:+: final := fun hinf =>
    hvo (hinf.trans (final_infix_joinVis parts final))
  have hfin : ∀ i, findSub thinkOpenTag final = some i →
      findSub thinkCloseTag (final.drop (i + 7)) = none := by
    intro i hi
    rw [findSub_eq_none (by decide) hfo] at hi
    cases hi
  have hex : extractComplete (renderSegs parts final) =
      (joinVis parts final, parts.map Prod.snd) :=
    extractComplete_renderSegs parts final hv hcc hfin
  have hmain1 : ¬ thinkOpenTag <:+: trim (joinVis parts final) := fun hinf =>
    hvo (hinf.trans (infixOfTrim _))
  have hmain1c : ¬ thinkCloseTag <:+: trim (joinVis parts final) := fun hinf =>
    hvc (hinf.trans (infixOfTrim _))
  have hnone : findSub thinkOpenTag (trim (joinVis parts final)) = none :=
    findSub_eq_none (by decide) hmain1
  have hthinks : (parts.map Prod.snd).foldl addThink [] = parts.map (fun p => trim p.2) := by
    rw [foldl_addThink_eq (parts.map Prod.snd) [] ?_ ?_ ?_]
    · rw [List.nil_append, List.map_map]
      rfl
    · intro x hx
      rcases List.mem_map.1 hx with ⟨p, hp, hpx⟩
      rw [← hpx]
      exact hne p hp
    · intro x hx h
      simp at h
    · rw [List.map_map]
      exact hnd
  have hproc : processAIResponse (renderSegs parts final) =
      ⟨parts.map (fun p => trim p.2), trim (joinVis parts final)⟩ := by
    unfold processAIResponse
    rw [hex]
    dsimp only
    rw [hnone]
    dsimp only
    rw [hthinks, removeAll_no_match (by decide) hmain1,
      removeAll_no_match (by decide) hmain1c, trim_idem]
  rw [hproc]
  exact ⟨rfl, by simp, hmain1, hmain1c⟩

/-- Witness for C5: the spec's own scenario `"<think>step1</think>Answer A"`
is rendered from one section with visible remainder `"Answer A"`; the
extractor returns `["step1"]` and the marker-free visible text. -/
theorem c5_extraction_roundtrip_witness :
    (¬ thinkOpenTag <:+: joinVis [(([] : List Char), "step1".toList)] "Answer A".toList ∧
      ¬ thinkCloseTag <:+: joinVis [(([] : List Char), "step1".toList)] "Answer A".toList ∧
      (∀ p ∈ [(([] : List Char), "step1".toList)], ¬ thinkCloseTag <:+: p.2) ∧
      (∀ p ∈ [(([] : List Char), "step1".toList)], trim p.2 ≠ []) ∧
      ([(([] : List Char), "step1".toList)].map (fun p => trim p.2)).Nodup) ∧
      (processAIResponse (renderSegs [(([] : List Char), "step1".toList)] "Answer A".toList)).thinks =
        [(([] : List Char), "step1".toList)].map (fun p => trim p.2) ∧
      (processAIResponse (renderSegs [(([] : List Char), "step1".toList)] "Answer A".toList)).thinks.length = 1 ∧
      ¬ thinkOpenTag <:+:
        (processAIResponse (renderSegs [(([] : List Char), "step1".toList)] "Answer A".toList)).mainContent ∧
      ¬ thinkCloseTag <:+:
        (processAIResponse (renderSegs [(([] : List Char), "step1".toList)] "Answer A".toList)).mainContent :=
  ⟨⟨by decide, by decide, by decide, by decide, by decide⟩,
    (c5_extraction_roundtrip [(([] : List Char), "step1".toList)] "Answer A".toList
      (by decide) (by decide) (by decide) (by decide) (by decide))⟩

/-- Counterexample to C5 as stated: `"<think> </think>"` contains exactly
one well-formed (properly opened and closed) reasoning segment, yet the
extractor returns zero segments, because a segment whose content trims to
the empty string is discarded. -/
theorem c5_counterexample :
    (processAIResponse "<think> </think>".toList).thinks = [] ∧
      (processAIResponse "<think> </think>".toList).mainContent = [] := by decide

theorem trim_trimL (s : List Char) : trim (trimL s) = trim s := by
  show trimR (trimL (trimL s)) = trim s
  rw [trimL_idem]
  rfl

theorem trimR_append_thinkOpen (X B : List Char) :
    trimR (X ++ (thinkOpenTag ++ B)) = X ++ (thinkOpenTag ++ trimR B) := by
  have hOpenRev : thinkOpenTag.reverse.dropWhile isWs = thinkOpenTag.reverse := by decide
  show ((X ++ (thinkOpenTag ++ B)).reverse.dropWhile isWs).reverse = _
  rw [List.reverse_append, List.reverse_append, List.dropWhile_append]
  by_cases hB : ((B.reverse ++ thinkOpenTag.reverse).dropWhile isWs).isEmpty
  · exfalso
    rw [List.dropWhile_append] at hB
    by_cases hB2 : (B.reverse.dropWhile isWs).isEmpty
    · rw [if_pos hB2, hOpenRev] at hB
      exact absurd (List.isEmpty_iff.1 hB) (by decide)
    · rw [if_neg hB2] at hB
      rw [List.isEmpty_iff, List.append_eq_nil] at hB
      exact absurd hB.2 (by decide)
  · rw [if_neg hB, List.reverse_append, List.reverse_reverse]
    congr 1
    rw [List.dropWhile_append]
    by_cases hB2 : (B.reverse.dropWhile isWs).isEmpty
    · rw [if_pos hB2, hOpenRev, List.reverse_reverse]
      have htr : trimR B = [] := by
        unfold trimR
        rw [List.isEmpty_iff.1 hB2]
        rfl
      rw [htr, List.append_nil]
    · rw [if_neg hB2, List.reverse_append, List.reverse_reverse]
      rfl

theorem trimL_append_thinkOpen (A B : List Char) :
    trimL (A ++ (thinkOpenTag ++ B)) = trimL A ++ (thinkOpenTag ++ B) := by
  show (A ++ (thinkOpenTag ++ B)).dropWhile isWs = A.dropWhile isWs ++ (thinkOpenTag ++ B)
  rw [List.dropWhile_append]
  by_cases hA : (A.dropWhile isWs).isEmpty
  · rw [if_pos hA, List.isEmpty_iff.1 hA, List.nil_append]
    rfl
  · rw [if_neg hA]

theorem trim_append_thinkOpen (A B : List Char) :
    trim (A ++ (thinkOpenTag ++ B)) = trimL A ++ (thinkOpenTag ++ trimR B) := by
  show trimR (trimL (A ++ (thinkOpenTag ++ B))) = _
  rw [trimL_append_thinkOpen]
  exact trimR_append_thinkOpen (trimL A) B

/-- Claim C6, corrected statement: for a text whose remainder after the
well-formed sections ends in an unterminated `<think>` with tail content,
the extractor returns the trimmed tail as a reasoning segment — provided
the trimmed tail is non-empty and not an exact duplicate of an earlier
segment (otherwise it is silently dropped, see `c6_counterexample`) — and
removes the marker and tail from the visible text. -/
theorem c6_unterminated_extraction (parts : List (List Char × List Char))
    (w tail : List Char)
    (hvo : ¬ thinkOpenTag <:+: joinVis parts w)
    (hvc : ¬ thinkCloseTag <:+: joinVis parts w)
    (hcc : ∀ p ∈ parts, ¬ thinkCloseTag <:+: p.2)
    (htc : ¬ thinkCloseTag <:+: tail)
    (hne : ∀ p ∈ parts, trim p.2 ≠ [])
    (hnd : (parts.map (fun p => trim p.2)).Nodup)
    (htne : trim tail ≠ [])
    (htnd : trim tail ∉ parts.map (fun p => trim p.2)) :
    (processAIResponse (renderSegs parts (w ++ (thinkOpenTag ++ tail)))).thinks =
        parts.map (fun p => trim p.2) ++ [trim tail] ∧
      (processAIResponse (renderSegs parts (w ++ (thinkOpenTag ++ tail)))).mainContent =
        trim (joinVis parts w) := by
  have hwo : ¬ thinkOpenTag <:+: w := fun hinf =>
    hvo (hinf.trans (final_infix_joinVis parts w))
  have hv : ∀ p ∈ parts, ¬ thinkOpenTag <:+: p.1 := fun p hp hinf =>
    hvo (hinf.trans (fst_infix_joinVis parts w hp))
  have hfind_final : findSub thinkOpenTag (w ++ (thinkOpenTag ++ tail)) = some w.length :=
    findSub_append_self (by decide) noBorder_thinkOpenTag hwo
  have hfin : ∀ i, findSub thinkOpenTag (w ++ (thinkOpenTag ++ tail)) = some i →
      findSub thinkCloseTag ((w ++ (thinkOpenTag ++ tail)).drop (i + 7)) = none := by
    intro i hi
    rw [hfind_final] at hi
    injection hi with hi
    subst hi
    rw [List.drop_append 7,
      show (thinkOpenTag ++ tail).drop 7 = tail from List.drop_left' rfl]
    exact findSub_eq_none (by decide) htc
  have hex : extractComplete (renderSegs parts (w ++ (thinkOpenTag ++ tail))) =
      (joinVis parts (w ++ (thinkOpenTag ++ tail)), parts.map Prod.snd) :=
    extractComplete_renderSegs parts (w ++ (thinkOpenTag ++ tail)) hv hcc hfin
  have hAo : ¬ thinkOpenTag <:+: trimL (joinVis parts w) := fun hinf =>
    hvo (hinf.trans (trimL_suffix _).isInfix)
  have hfind_main : findSub thinkOpenTag
      (trimL (joinVis parts w) ++ (thinkOpenTag ++ trimR tail)) =
      some (trimL (joinVis parts w)).length :=
    findSub_append_self (by decide) noBorder_thinkOpenTag hAo
  have hthinks : (parts.map Prod.snd).foldl addThink [] =
      parts.map (fun p => trim p.2) := by
    rw [foldl_addThink_eq (parts.map Prod.snd) [] ?_ ?_ ?_]
    · rw [List.nil_append, List.map_map]
      rfl
    · intro x hx
      rcases List.mem_map.1 hx with ⟨p, hp, hpx⟩
      rw [← hpx]
      exact hne p hp
    · intro x hx h
      simp at h
    · rw [List.map_map]
      exact hnd
  have hto2 : ¬ thinkOpenTag <:+: trim (joinVis parts w) := fun hinf =>
    hvo (hinf.trans (infixOfTrim _))
  have htc2 : ¬ thinkCloseTag <:+: trim (joinVis parts w) := fun hinf =>
    hvc (hinf.trans (infixOfTrim _))
  have hproc : processAIResponse (renderSegs parts (w ++ (thinkOpenTag ++ tail))) =
      ⟨parts.map (fun p => trim p.2) ++ [trim tail], trim (joinVis parts w)⟩ := by
    unfold processAIResponse
    rw [hex]
    dsimp only
    rw [joinVis_append parts w (thinkOpenTag ++ tail), trim_append_thinkOpen, hfind_main]
    dsimp only
    rw [List.drop_append 7,
      show (thinkOpenTag ++ trimR tail).drop 7 = trimR tail from List.drop_left' rfl,
      List.take_left, trim_trimL, hthinks]
    rw [removeAll_no_match (by decide) hto2, removeAll_no_match (by decide) htc2,
      trim_idem]
    unfold addThink
    rw [trim_trimR, if_neg htne, if_neg htnd]
  rw [hproc]
  exact ⟨rfl, rfl⟩

/-- Witness for C6: the spec's own instance — `"Answer <think>partial thought"`
yields the reasoning segment `"partial thought"` and visible text `"Answer"`. -/
theorem c6_unterminated_extraction_witness :
    ((¬ thinkOpenTag <:+: joinVis [] "Answer ".toList) ∧
      (¬ thinkCloseTag <:+: joinVis [] "Answer ".toList) ∧
      (¬ thinkCloseTag <:+: "partial thought".toList) ∧
      trim "partial thought".toList ≠ [] ∧
      trim "partial thought".toList ∉ ([] : List (List Char × List Char)).map (fun p => trim p.2)) ∧
      (processAIResponse (renderSegs [] ("Answer ".toList ++ (thinkOpenTag ++ "partial thought".toList)))).thinks =
        ([] : List (List Char × List Char)).map (fun p => trim p.2) ++ [trim "partial thought".toList] ∧
      (processAIResponse (renderSegs [] ("Answer ".toList ++ (thinkOpenTag ++ "partial thought".toList)))).mainContent =
        trim (joinVis [] "Answer ".toList) :=
  ⟨⟨by decide, by decide, by decide, by decide, by decide⟩,
    c6_unterminated_extraction [] "Answer ".toList "partial thought".toList
      (by decide) (by decide) (by decide) (by decide) (by decide) (by decide)
      (by decide) (by decide)⟩

/-- Counterexample to C6 as stated: `"abc<think> "` has a start marker with
no matching end marker and tail `" "`, yet the extractor returns no
reasoning segment at all (the trimmed tail is empty and is discarded);
only the removal half of the claim holds. -/
theorem c6_counterexample :
    (processAIResponse "abc<think> ".toList).thinks = [] ∧
      (processAIResponse "abc<think> ".toList).mainContent = "abc".toList := by decide
